import Mathlib

/-!
# Serial bootloader and UART driver of `riscv-core`

A shallow embedding of `programs/bootloader.c` (`main`) and `programs/c/io.c`
(`uart_write`, `uart_read`).  Volatile accesses to the UART register block,
stores to memory and the final jump are recorded, in program order, in a trace
of events.  Busy-wait loops take a fuel argument bounding the number of
iterations; `none` means the loop was still running when the fuel ran out.
-/

namespace RiscvCore

/-! ## Constants of `bootloader.c` -/

/-- Base address of the UART register block (`#define UART_BASE 0x01000000`). -/
def UART_BASE : Nat := 0x01000000

/-- Base address of the loaded image (`#define INSTR_BASE (uint8_t*) 0x00001000`). -/
def INSTR_BASE : Nat := 0x00001000

/-- Entry point called at the end of `main` (`#define prog ((void (*)(void))0x00001000)`). -/
def prog : Nat := 0x00001000

/-! ## Observable events -/

/-- One observable action of the programs, in program order. -/
inductive Event where
  /-- volatile read of the read-available flag (`rd_flag` / `rx_buf_avail`) returned `v` -/
  | rdFlag (v : Nat)
  /-- volatile read of the read-data register (`rd_data` / `rx_data`) returned `w` -/
  | rdData (w : Nat)
  /-- volatile read of the write-buffer-full flag (`tx_buf_full`) returned `v` -/
  | wrFull (v : Nat)
  /-- volatile write of the word `w` to the write-data register (`tx_data`) -/
  | wrData (w : Nat)
  /-- store of the byte `b` to the memory address `addr` -/
  | store (addr : Nat) (b : Nat)
  /-- call of the function at address `addr` -/
  | jump (addr : Nat)
  deriving DecidableEq, Repr

/-! ## The UART peripheral -/

/-- Modelled from the spec: the serial peripheral itself is hardware and has no
source in the C files; only the register comments of `uart_t` describe it
("Read data word. Undefined if rd_flag is 0", "Read data available flag. 1 if
data is available, 0 otherwise", "Write buffer full flag. 1 if buffer is full,
0 otherwise").

* `rx` is the receive side as the program meets it, one entry per access to the
  receive registers: `some w` is a word waiting in the read buffer, `none` is a
  moment at which no word has arrived yet.  When `rx` is exhausted no word ever
  arrives again.
* `junk` is the (unspecified) word the read-data register yields when it is
  read while no word is available.
* `txFull` lists the values successive reads of the write-buffer-full flag
  return; after them the transmitter has drained and the flag reads 0. -/
structure Uart where
  rx : List (Option Nat)
  junk : Nat
  txFull : List Nat

/-- Volatile read of the read-available flag: 1 if a word is waiting, else 0.
A read that sees no word lets one moment pass. -/
def Uart.readFlag (u : Uart) : Nat × Uart :=
  match u.rx with
  | [] => (0, u)
  | none :: r => (0, { u with rx := r })
  | some _ :: _ => (1, u)

/-- Volatile read of the 32-bit read-data register: takes the waiting word out
of the read buffer; yields the unspecified word when nothing is waiting. -/
def Uart.readData (u : Uart) : Nat × Uart :=
  match u.rx with
  | [] => (u.junk % 2 ^ 32, u)
  | none :: r => (u.junk % 2 ^ 32, { u with rx := r })
  | some w :: r => (w % 2 ^ 32, { u with rx := r })

/-- Volatile read of the write-buffer-full flag. -/
def Uart.readTxFull (u : Uart) : Nat × Uart :=
  match u.txFull with
  | [] => (0, u)
  | v :: r => (v % 2 ^ 32, { u with txFull := r })

/-- The words of a receive stream, without the idle moments. -/
def rxWords (rx : List (Option Nat)) : List Nat :=
  rx.filterMap id

/-! ## Machine state -/

/-- The UART, the byte-addressed memory and the events so far (oldest first). -/
structure Machine where
  uart : Uart
  mem : Nat → Nat
  trace : List Event

/-- Append one event to the trace. -/
def Machine.emit (m : Machine) (e : Event) : Machine :=
  { m with trace := m.trace ++ [e] }

/-- Store of a `uint8_t`/`char` value: the low 8 bits of `v` go to `addr`. -/
def Machine.storeByte (m : Machine) (addr v : Nat) : Machine :=
  { m with
    mem := fun a => if a = addr then v % 256 else m.mem a
    trace := m.trace ++ [Event.store addr (v % 256)] }

/-- Volatile load of the read-available flag. -/
def Machine.loadFlag (m : Machine) : Nat × Machine :=
  let r := m.uart.readFlag
  (r.1, { m with uart := r.2, trace := m.trace ++ [Event.rdFlag r.1] })

/-- Volatile load of the read-data register. -/
def Machine.loadData (m : Machine) : Nat × Machine :=
  let r := m.uart.readData
  (r.1, { m with uart := r.2, trace := m.trace ++ [Event.rdData r.1] })

/-- Volatile load of the write-buffer-full flag. -/
def Machine.loadTxFull (m : Machine) : Nat × Machine :=
  let r := m.uart.readTxFull
  (r.1, { m with uart := r.2, trace := m.trace ++ [Event.wrFull r.1] })

/-- Volatile store of a word to the write-data register. -/
def Machine.storeTxData (m : Machine) (w : Nat) : Machine :=
  { m with trace := m.trace ++ [Event.wrData (w % 2 ^ 32)] }

/-! ## `bootloader.c` -/

/-- The spin loop `while (!uart->rd_flag) {};` of `main` (line 43). -/
def spinRdFlag : Nat → Machine → Option Machine
  | 0, _ => none
  | fuel + 1, m =>
    let r := m.loadFlag
    if r.1 = 0 then spinRdFlag fuel r.2 else some r.2

/-- The payload loop of `main` (lines 46-48):
`for(num_bytes_read = 0; num_bytes_read < num_bytes; num_bytes++)
   { *(INSTR_BASE + tot_bytes) = uart->rd_data; }`
entered after the initialisation of `num_bytes_read`.  The increment is applied
to the `uint8_t` variable `num_bytes`.  Returns the final `num_bytes`. -/
def payloadLoop (tot_bytes num_bytes_read : Nat) : Nat → Nat → Machine → Option (Nat × Machine)
  | 0, _, _ => none
  | fuel + 1, num_bytes, m =>
    if num_bytes_read < num_bytes then
      let r := m.loadData
      let m1 := r.2.storeByte (INSTR_BASE + tot_bytes) r.1
      payloadLoop tot_bytes num_bytes_read fuel ((num_bytes + 1) % 256) m1
    else some (num_bytes, m)

/-- The `do { ... } while(num_bytes == 255);` loop of `main` (lines 42-49). -/
def chunkLoop (tot_bytes : Nat) : Nat → Machine → Option Machine
  | 0, _ => none
  | fuel + 1, m =>
    match spinRdFlag fuel m with
    | none => none
    | some m1 =>
      let r := m1.loadData
      let num_bytes := r.1 % 256
      match payloadLoop tot_bytes 0 fuel num_bytes r.2 with
      | none => none
      | some (num_bytes1, m2) =>
        if num_bytes1 = 255 then chunkLoop tot_bytes fuel m2 else some m2

/-- The function `main` of `bootloader.c`, started on a UART and a memory with
an empty trace.  `tot_bytes` is set to 0 and the loop is entered; once the loop
is left `prog()` is called. -/
def main (fuel : Nat) (uart : Uart) (mem : Nat → Nat) : Option Machine :=
  let tot_bytes := 0
  match chunkLoop tot_bytes fuel { uart := uart, mem := mem, trace := [] } with
  | none => none
  | some m => some (m.emit (Event.jump prog))

/-- The words returned by reads of the read-data register, in order. -/
def dataReads : List Event → List Nat
  | [] => []
  | Event.rdData w :: t => w :: dataReads t
  | _ :: t => dataReads t

/-- The stores made, as (address, byte) pairs, in order. -/
def storesOf : List Event → List (Nat × Nat)
  | [] => []
  | Event.store a b :: t => (a, b) :: storesOf t
  | _ :: t => storesOf t

/-- The words written to the write-data register, in order. -/
def dataWrites : List Event → List Nat
  | [] => []
  | Event.wrData w :: t => w :: dataWrites t
  | _ :: t => dataWrites t

/-! ## `io.c` -/

/-- Conversion of a `char` holding the bit pattern `b` to `uint32_t`, as in
`uart->tx_data = data[ptr];`.  Whether plain `char` is signed is left to the
compiler, so it is a parameter: a signed `char` is sign-extended. -/
def charToWord (signedChar : Bool) (b : Nat) : Nat :=
  if signedChar = true ∧ 128 ≤ b % 256 then b % 256 + (2 ^ 32 - 256) else b % 256

/-- The spin loop `while(uart->tx_buf_full) {};` of `uart_write` (line 15). -/
def spinTxFull : Nat → Machine → Option Machine
  | 0, _ => none
  | fuel + 1, m =>
    let r := m.loadTxFull
    if r.1 ≠ 0 then spinTxFull fuel r.2 else some r.2

/-- The loop of `uart_write` (lines 14-17), entered with the current `ptr`:
`for(ptr = 0; ptr < len && data[ptr]; ptr++)
   { while(uart->tx_buf_full) {}; uart->tx_data = data[ptr]; }`.
`data` is the address the pointer holds. -/
def uartWriteLoop (signedChar : Bool) (data : Nat) (len : Int) :
    Nat → Int → Machine → Option Machine
  | 0, _, _ => none
  | fuel + 1, ptr, m =>
    if ptr < len ∧ m.mem (data + ptr.toNat) % 256 ≠ 0 then
      match spinTxFull fuel m with
      | none => none
      | some m1 =>
        uartWriteLoop signedChar data len fuel (ptr + 1)
          (m1.storeTxData (charToWord signedChar (m1.mem (data + ptr.toNat))))
    else some m

/-- The function `uart_write(char* data, int len)` of `io.c`, started with an
empty trace. -/
def uart_write (fuel : Nat) (signedChar : Bool) (uart : Uart) (mem : Nat → Nat)
    (data : Nat) (len : Int) : Option Machine :=
  uartWriteLoop signedChar data len fuel 0 { uart := uart, mem := mem, trace := [] }

/-- The loop of `uart_read` (lines 22-25), entered with the current `i`:
`for(int i=0; i < N; i++) { while(!uart->rx_buf_avail) {}; buf[i] = uart->rx_data; }`.
The spin loop on `rx_buf_avail` is the loop `spinRdFlag`.  `buf` is the address
the pointer holds. -/
def uartReadLoop (buf : Nat) (N : Int) : Nat → Int → Machine → Option Machine
  | 0, _, _ => none
  | fuel + 1, i, m =>
    if i < N then
      match spinRdFlag fuel m with
      | none => none
      | some m1 =>
        let r := m1.loadData
        uartReadLoop buf N fuel (i + 1) (r.2.storeByte (buf + i.toNat) r.1)
    else some m

/-- The function `uart_read(char* buf, int N)` of `io.c`, started with an empty
trace. -/
def uart_read (fuel : Nat) (uart : Uart) (mem : Nat → Nat) (buf : Nat) (N : Int) :
    Option Machine :=
  uartReadLoop buf N fuel 0 { uart := uart, mem := mem, trace := [] }

/-! ## Properties of traces -/

/-- Every write to the write-data register directly follows a read of the
write-buffer-full flag that returned 0. -/
def TxGuarded (t : List Event) : Prop :=
  ∀ (i w : Nat), t[i]? = some (Event.wrData w) →
    ∃ j, i = j + 1 ∧ t[j]? = some (Event.wrFull 0)

/-- Every read of the read-data register directly follows a read of the
read-available flag that returned a non-zero value. -/
def RxGuarded (t : List Event) : Prop :=
  ∀ (i w : Nat), t[i]? = some (Event.rdData w) →
    ∃ j v, i = j + 1 ∧ t[j]? = some (Event.rdFlag v) ∧ v ≠ 0

/-- Every read of the read-data register comes after a read of the
read-available flag that returned a non-zero value, with no other read of the
read-data register in between. -/
def RxPolled (t : List Event) : Prop :=
  ∀ (i w : Nat), t[i]? = some (Event.rdData w) →
    ∃ j v, j < i ∧ t[j]? = some (Event.rdFlag v) ∧ v ≠ 0 ∧
      ∀ (k w1 : Nat), j < k → k < i → t[k]? ≠ some (Event.rdData w1)

/-! ## Description of the payload loop's effect -/

/-- The events of a run of the payload loop that reads the words `ws` and
stores each to the address `addr`. -/
def payloadEvents (addr : Nat) : List Nat → List Event
  | [] => []
  | w :: ws =>
    Event.rdData (w % 2 ^ 32) :: Event.store addr (w % 2 ^ 32 % 256) :: payloadEvents addr ws

/-- The memory after the low bytes of the words `ws` have been stored, one
after the other, to the address `addr`. -/
def payloadMem (addr : Nat) (mem : Nat → Nat) : List Nat → Nat → Nat
  | [] => mem
  | w :: ws => payloadMem addr (fun a => if a = addr then w % 2 ^ 32 % 256 else mem a) ws

/-- The raw words (before truncation to 32 bits) that `c` successive reads of
the read-data register meet on the receive side `rx`: the waiting word where
there is one, the unspecified word `junk` where there is none. -/
def rawReads (junk : Nat) : Nat → List (Option Nat) → List Nat
  | 0, _ => []
  | c + 1, [] => junk :: rawReads junk c []
  | c + 1, none :: r => junk :: rawReads junk c r
  | c + 1, some w :: r => w :: rawReads junk c r

/-- Number of iterations the payload loop as written makes for the length
byte `n`: `num_bytes` is incremented until it wraps to 0. -/
def wrapCount (n : Nat) : Nat := (256 - n % 256) % 256

/-- The receive side with every word (and the unspecified word) cut down to its
low 8 bits. -/
def Uart.lowBytes (u : Uart) : Uart :=
  { rx := u.rx.map (Option.map (fun w => w % 256)), junk := u.junk % 256, txFull := u.txFull }

/-- An event with the word of a read of the read-data register cut down to its
low 8 bits; every other event is left as it is. -/
def Event.lowByte : Event → Event
  | Event.rdData w => Event.rdData (w % 256)
  | e => e

/-! ## The register block `uart_t` -/

/-- What a register of the UART is for. -/
inductive Role where
  | readData | readAvail | readFull | readCount | unused
  | writeData | writeFull | writeCount
  deriving DecidableEq, Repr

/-- The field names of the two declarations of `uart_t`. -/
inductive Field where
  | rd_data | rd_flag | rd_buf_cnt | not_used | wr_data | wr_buf_full | wr_buf_cnt
  | rx_data | rx_buf_full | rx_buf_cnt | rx_buf_avail | tx_data | tx_buf_full | tx_buf_cnt
  deriving DecidableEq, Repr

/-- The role of a field, from the comments in `bootloader.c` (lines 15-21) and
from the field names in `io.h`. -/
def Field.role : Field → Role
  | Field.rd_data => Role.readData
  | Field.rd_flag => Role.readAvail
  | Field.rd_buf_cnt => Role.readCount
  | Field.not_used => Role.unused
  | Field.wr_data => Role.writeData
  | Field.wr_buf_full => Role.writeFull
  | Field.wr_buf_cnt => Role.writeCount
  | Field.rx_data => Role.readData
  | Field.rx_buf_full => Role.readFull
  | Field.rx_buf_cnt => Role.readCount
  | Field.rx_buf_avail => Role.readAvail
  | Field.tx_data => Role.writeData
  | Field.tx_buf_full => Role.writeFull
  | Field.tx_buf_cnt => Role.writeCount

/-- The struct `uart_t` of `bootloader.c` (lines 14-22), fields in declaration
order; every field is a `uint32_t`. -/
def bootloaderUart : List Field :=
  [Field.rd_data, Field.rd_flag, Field.rd_buf_cnt, Field.not_used, Field.wr_data,
   Field.wr_buf_full, Field.wr_buf_cnt]

/-- The struct `uart_t` of `io.h` (lines 7-15), fields in declaration order;
every field is a `uint32_t`. -/
def ioUart : List Field :=
  [Field.rx_data, Field.rx_buf_full, Field.rx_buf_cnt, Field.rx_buf_avail, Field.tx_data,
   Field.tx_buf_full, Field.tx_buf_cnt]

/-- Byte offset of a field in a struct whose fields are all `uint32_t`: four
bytes for every field declared before it. -/
def fieldOffset : List Field → Field → Option Nat
  | [], _ => none
  | g :: rest, f => if g = f then some 0 else (fieldOffset rest f).map (fun o => o + 4)

/-- Byte offset of the (first) field with the given role. -/
def roleOffset : List Field → Role → Option Nat
  | [], _ => none
  | g :: rest, r => if g.role = r then some 0 else (roleOffset rest r).map (fun o => o + 4)

/-- The flag `main` polls before it reads the length byte (`uart->rd_flag`,
`bootloader.c` line 43). -/
def mainPolledField : Field := Field.rd_flag

/-- The flag `uart_read` polls before every read (`uart->rx_buf_avail`, `io.c`
line 23). -/
def uartReadPolledField : Field := Field.rx_buf_avail

/-! ## Concrete inputs -/

/-- A memory holding 0 everywhere. -/
def zeroMem : Nat → Nat := fun _ => 0

/-- A memory holding 1 everywhere. -/
def oneMem : Nat → Nat := fun _ => 1

/-- The stream `[0xFF, <255 bytes 0xAA>, 0x02, 0xDD, 0xEE]`, all of it already
waiting in the read buffer: a full chunk followed by a final chunk of 2 bytes. -/
def twoChunkStream : List (Option Nat) :=
  some 0xFF :: (List.replicate 255 (some 0xAA) ++ [some 0x02, some 0xDD, some 0xEE])

/-- The stream `[0x03, 0xAA, 0xBB, 0xCC]` followed by 250 bytes `0x11` and one
byte `0x77`, all of it already waiting in the read buffer. -/
def threeByteStream : List (Option Nat) :=
  [some 0x03, some 0xAA, some 0xBB, some 0xCC] ++ List.replicate 250 (some 0x11) ++ [some 0x77]

/-- The stream `[0xFE, 0xAA, 0xBB]`, all of it already waiting in the read buffer. -/
def shortStream : List (Option Nat) :=
  [some 0xFE, some 0xAA, some 0xBB]

/-- The stream `[0xFF, 0xAA]` whose second byte arrives one moment after the
first has been taken. -/
def lateStream : List (Option Nat) :=
  [some 0xFF, none, some 0xAA]

/-- The stream `[0xFF, 0xAA]` with both bytes already waiting in the read
buffer. -/
def promptStream : List (Option Nat) :=
  [some 0xFF, some 0xAA]

/-- The stream of 32-bit words `[0x1FF, 0xAA, 0x02, 0xDD, 0xEE]`, all of it
already waiting in the read buffer; the low byte of the first word is 0xFF. -/
def wideSentinelStream : List (Option Nat) :=
  [some 0x1FF, some 0xAA, some 0x02, some 0xDD, some 0xEE]

/-- The stream of 32-bit words `[0x103, 0xAA, 0xBB, 0xCC]` followed by 250
words `0x11` and one word `0x77`, all of it already waiting in the read buffer;
the low byte of the first word is 0x03. -/
def wideThreeStream : List (Option Nat) :=
  [some 0x103, some 0xAA, some 0xBB, some 0xCC] ++ List.replicate 250 (some 0x11) ++ [some 0x77]

/-! ## Lemmas on the spin loops -/

theorem spinRdFlag_idle (k : Nat) : ∀ (fuel : Nat) (m : Machine) (w : Nat)
    (rest : List (Option Nat)),
    m.uart.rx = List.replicate k none ++ some w :: rest → k + 1 ≤ fuel →
    spinRdFlag fuel m = some
      { uart := { m.uart with rx := some w :: rest }
        mem := m.mem
        trace := m.trace ++ List.replicate k (Event.rdFlag 0) ++ [Event.rdFlag 1] } := by
  induction k with
  | zero =>
    intro fuel m w rest hrx hf
    obtain ⟨f, rfl⟩ : ∃ f, fuel = f + 1 := ⟨fuel - 1, by omega⟩
    obtain ⟨u, mem, t⟩ := m
    obtain ⟨rx, junk, tx⟩ := u
    simp only [List.replicate, List.nil_append] at hrx
    subst hrx
    simp [spinRdFlag, Machine.loadFlag, Uart.readFlag]
  | succ k ih =>
    intro fuel m w rest hrx hf
    obtain ⟨f, rfl⟩ : ∃ f, fuel = f + 1 := ⟨fuel - 1, by omega⟩
    obtain ⟨u, mem, t⟩ := m
    obtain ⟨rx, junk, tx⟩ := u
    simp only [List.replicate, List.cons_append] at hrx
    subst hrx
    simp only [spinRdFlag, Machine.loadFlag, Uart.readFlag, if_true]
    rw [ih f _ w rest rfl (by omega)]
    simp [List.replicate_succ]

/-! ## Lemmas on traces -/

theorem dataWrites_append (a b : List Event) :
    dataWrites (a ++ b) = dataWrites a ++ dataWrites b := by
  induction a with
  | nil => rfl
  | cons e a ih => cases e <;> simp [dataWrites, ih]

theorem dataWrites_map_wrFull (vs : List Nat) : dataWrites (vs.map Event.wrFull) = [] := by
  induction vs with
  | nil => rfl
  | cons v vs ih => simpa [dataWrites] using ih

theorem dataReads_append (a b : List Event) :
    dataReads (a ++ b) = dataReads a ++ dataReads b := by
  induction a with
  | nil => rfl
  | cons e a ih => cases e <;> simp [dataReads, ih]

theorem dataReads_replicate_rdFlag (k v : Nat) :
    dataReads (List.replicate k (Event.rdFlag v)) = [] := by
  induction k with
  | zero => rfl
  | succ k ih => simpa [List.replicate_succ, dataReads] using ih

/-- Appending flag reads, a flag read that returned 0 and one write keeps a
trace guarded. -/
theorem TxGuarded.step {t : List Event} (h : TxGuarded t) (vs : List Nat) (w : Nat) :
    TxGuarded (t ++ vs.map Event.wrFull ++ [Event.wrFull 0] ++ [Event.wrData w]) := by
  intro i x hi
  rcases Nat.lt_or_ge i t.length with h1 | h1
  · have e1 : (t ++ vs.map Event.wrFull ++ [Event.wrFull 0] ++ [Event.wrData w])[i]? = t[i]? := by
      simp [List.append_assoc, List.getElem?_append_left h1]
    rw [e1] at hi
    obtain ⟨j, hj, hj2⟩ := h i x hi
    refine ⟨j, hj, ?_⟩
    have h2 : j < t.length := by omega
    simpa [List.append_assoc, List.getElem?_append_left h2] using hj2
  · rcases Nat.lt_or_ge i (t.length + vs.length) with h2 | h2
    · exfalso
      have h3 : i - t.length < (vs.map Event.wrFull).length := by simp; omega
      rw [List.append_assoc, List.append_assoc, List.getElem?_append_right h1,
        List.getElem?_append_left h3] at hi
      simp at hi
    · have hlen : (t ++ vs.map Event.wrFull).length = t.length + vs.length := by simp
      rcases Nat.lt_or_ge i (t.length + vs.length + 1) with h3 | h3
      · exfalso
        have h4 : i = t.length + vs.length := by omega
        subst h4
        rw [List.append_assoc (t ++ vs.map Event.wrFull), List.getElem?_append_right (by omega)] at hi
        simp [hlen] at hi
      · rcases Nat.lt_or_ge i (t.length + vs.length + 2) with h4 | h4
        · have h5 : i = t.length + vs.length + 1 := by omega
          refine ⟨t.length + vs.length, h5, ?_⟩
          rw [List.append_assoc (t ++ vs.map Event.wrFull), List.getElem?_append_right (by omega)]
          simp [hlen]
        · exfalso
          rw [List.getElem?_eq_none (by simp; omega)] at hi
          simp at hi

/-! ## Lemmas on `uart_write` -/

theorem charToWord_lt (sc : Bool) (b : Nat) : charToWord sc b < 2 ^ 32 := by
  unfold charToWord
  split <;> omega

theorem charToWord_mod (sc : Bool) (b : Nat) : charToWord sc b % 256 = b % 256 := by
  unfold charToWord
  split <;> omega

theorem charToWord_byte (sc : Bool) (b : Nat) : charToWord sc (b % 256) = charToWord sc b := by
  simp [charToWord]

/-- The spin loop on the write-buffer-full flag ends once the listed flag
values are used up at the latest; it only reads the flag and the last value it
reads is 0. -/
theorem spinTxFull_result (tx : List Nat) : ∀ (fuel : Nat) (m : Machine),
    m.uart.txFull = tx → tx.length + 1 ≤ fuel →
    ∃ (vs rest : List Nat), rest.length ≤ tx.length ∧
      spinTxFull fuel m = some
        { uart := { m.uart with txFull := rest }
          mem := m.mem
          trace := m.trace ++ vs.map Event.wrFull ++ [Event.wrFull 0] } := by
  induction tx with
  | nil =>
    intro fuel m htx hf
    obtain ⟨f, rfl⟩ : ∃ f, fuel = f + 1 := ⟨fuel - 1, by omega⟩
    refine ⟨[], [], by simp, ?_⟩
    obtain ⟨⟨rx, junk, tx⟩, mem, t⟩ := m
    simp only at htx
    subst htx
    simp [spinTxFull, Machine.loadTxFull, Uart.readTxFull]
  | cons v tx ih =>
    intro fuel m htx hf
    obtain ⟨f, rfl⟩ : ∃ f, fuel = f + 1 := ⟨fuel - 1, by simp at hf; omega⟩
    obtain ⟨⟨rx, junk, tx0⟩, mem, t⟩ := m
    simp only at htx
    subst htx
    by_cases hv : v % 2 ^ 32 = 0
    · refine ⟨[], tx, by simp, ?_⟩
      have hv1 : v % 4294967296 = 0 := hv
      simp [spinTxFull, Machine.loadTxFull, Uart.readTxFull, hv1]
    · obtain ⟨vs, rest, hlen, hres⟩ := ih f
        { uart := { rx := rx, junk := junk, txFull := tx }, mem := mem,
          trace := t ++ [Event.wrFull (v % 2 ^ 32)] } rfl (by simp at hf; omega)
      refine ⟨(v % 2 ^ 32) :: vs, rest, by simp; omega, ?_⟩
      simp only [spinTxFull, Machine.loadTxFull, Uart.readTxFull]
      rw [if_pos hv, hres]
      simp

/-- The loop of `uart_write`, entered at `ptr` with `n` positions left before
`len`: it returns, leaves memory and the receive side alone, writes the
null-free prefix of the remaining bytes and keeps the trace guarded. -/
theorem uartWriteLoop_result (sc : Bool) (data : Nat) (len : Int) (n : Nat) :
    ∀ (fuel : Nat) (ptr : Int) (m : Machine), 0 ≤ ptr → (len - ptr).toNat = n →
    n + m.uart.txFull.length + 1 ≤ fuel →
    ∃ m1, uartWriteLoop sc data len fuel ptr m = some m1 ∧ m1.mem = m.mem ∧
      m1.uart.rx = m.uart.rx ∧ (n = 0 → m1 = m) ∧
      dataWrites m1.trace = dataWrites m.trace ++
        (((List.range n).map (fun i => m.mem (data + ptr.toNat + i) % 256)).takeWhile
          (fun b => b ≠ 0)).map (charToWord sc) ∧
      (TxGuarded m.trace → TxGuarded m1.trace) := by
  induction n with
  | zero =>
    intro fuel ptr m hptr hn hf
    obtain ⟨f, rfl⟩ : ∃ f, fuel = f + 1 := ⟨fuel - 1, by omega⟩
    have hlt : ¬ ptr < len := by omega
    refine ⟨m, ?_, rfl, rfl, fun _ => rfl, by simp, id⟩
    simp [uartWriteLoop, hlt]
  | succ n ih =>
    intro fuel ptr m hptr hn hf
    obtain ⟨f, rfl⟩ : ∃ f, fuel = f + 1 := ⟨fuel - 1, by omega⟩
    have hlt : ptr < len := by omega
    by_cases hb : m.mem (data + ptr.toNat) % 256 = 0
    · refine ⟨m, ?_, rfl, rfl, fun h => by omega, ?_, id⟩
      · simp [uartWriteLoop, hb]
      · simp [List.range_succ_eq_map, List.takeWhile_cons, hb]
    · obtain ⟨vs, rest, hlen, hspin⟩ := spinTxFull_result m.uart.txFull f m rfl (by omega)
      obtain ⟨m1, hrun, hmem, hrx, -, hwr, hg⟩ := ih f (ptr + 1)
        (Machine.storeTxData
          { uart := { m.uart with txFull := rest }
            mem := m.mem
            trace := m.trace ++ vs.map Event.wrFull ++ [Event.wrFull 0] }
          (charToWord sc (m.mem (data + ptr.toNat))))
        (by omega) (by omega) (by simp [Machine.storeTxData]; omega)
      refine ⟨m1, ?_, ?_, ?_, fun h => by omega, ?_, ?_⟩
      · simp only [uartWriteLoop]
        rw [if_pos ⟨hlt, hb⟩, hspin]
        exact hrun
      · simpa [Machine.storeTxData] using hmem
      · simpa [Machine.storeTxData] using hrx
      · rw [hwr]
        have h1 : (ptr + 1).toNat = ptr.toNat + 1 := by omega
        have h2 : ∀ i, data + (ptr.toNat + 1) + i = data + ptr.toNat + (i + 1) := by
          intro i; omega
        simp [Machine.storeTxData, dataWrites_append, dataWrites_map_wrFull, dataWrites,
          List.range_succ_eq_map, List.takeWhile_cons, hb, h1, h2,
          charToWord_byte, Function.comp_def]
        exact charToWord_lt sc _
      · intro h0
        apply hg
        simpa [Machine.storeTxData] using h0.step vs _

/-! ## Lemmas on `uart_read` -/

theorem rxWords_split (rx : List (Option Nat)) (h : rxWords rx ≠ []) :
    ∃ (k w : Nat) (rest : List (Option Nat)),
      rx = List.replicate k none ++ some w :: rest ∧ rxWords rx = w :: rxWords rest := by
  induction rx with
  | nil => exact absurd rfl h
  | cons x rx ih =>
    cases x with
    | some w => exact ⟨0, w, rx, by simp, by simp [rxWords]⟩
    | none =>
      have h1 : rxWords rx ≠ [] := by simpa [rxWords] using h
      obtain ⟨k, w, rest, hrx, hw⟩ := ih h1
      refine ⟨k + 1, w, rest, by simp [List.replicate_succ, hrx], ?_⟩
      simpa [rxWords] using hw

/-- Appending events that are not reads of the read-data register keeps a trace
guarded. -/
theorem RxGuarded.append_quiet {t : List Event} (h : RxGuarded t) (q : List Event)
    (hq : ∀ e ∈ q, ∀ w, e ≠ Event.rdData w) : RxGuarded (t ++ q) := by
  intro i x hi
  rcases Nat.lt_or_ge i t.length with h1 | h1
  · rw [List.getElem?_append_left h1] at hi
    obtain ⟨j, v, hj, hj2, hv⟩ := h i x hi
    exact ⟨j, v, hj, by rw [List.getElem?_append_left (by omega)]; exact hj2, hv⟩
  · rw [List.getElem?_append_right h1] at hi
    exact absurd rfl (hq _ (List.getElem?_mem hi) x)

/-- Appending a flag read that returned a non-zero value and then a read of the
read-data register keeps a trace guarded. -/
theorem RxGuarded.append_read {t : List Event} (h : RxGuarded t) (v w : Nat) (hv : v ≠ 0) :
    RxGuarded (t ++ [Event.rdFlag v, Event.rdData w]) := by
  intro i x hi
  rcases Nat.lt_or_ge i t.length with h1 | h1
  · rw [List.getElem?_append_left h1] at hi
    obtain ⟨j, u, hj, hj2, hu⟩ := h i x hi
    exact ⟨j, u, hj, by rw [List.getElem?_append_left (by omega)]; exact hj2, hu⟩
  · rw [List.getElem?_append_right h1] at hi
    obtain ⟨d, hd⟩ : ∃ d, i = t.length + d := ⟨i - t.length, by omega⟩
    subst hd
    rcases d with _ | _ | d
    · simp at hi
    · exact ⟨t.length, v, rfl, by rw [List.getElem?_append_right (le_refl _)]; simp, hv⟩
    · simp at hi

/-- The loop of `uart_read`, entered at `i` with `n` positions left before `N`
on a stream that still supplies `n` words: it returns, takes exactly the next
`n` words, puts their low bytes at `buf[i] .. buf[i+n-1]`, leaves the rest of
memory alone and keeps the trace guarded. -/
theorem uartReadLoop_result (buf : Nat) (N : Int) (n : Nat) :
    ∀ (fuel : Nat) (i : Int) (m : Machine), 0 ≤ i → (N - i).toNat = n →
    n ≤ (rxWords m.uart.rx).length → n + m.uart.rx.length + 1 ≤ fuel →
    ∃ m1, uartReadLoop buf N fuel i m = some m1 ∧ (n = 0 → m1 = m) ∧
      rxWords m1.uart.rx = (rxWords m.uart.rx).drop n ∧
      dataReads m1.trace = dataReads m.trace ++
        ((rxWords m.uart.rx).take n).map (fun w => w % 2 ^ 32) ∧
      (∀ (j w : Nat), j < n → (rxWords m.uart.rx)[j]? = some w →
        m1.mem (buf + i.toNat + j) = w % 256) ∧
      (∀ a, a < buf + i.toNat ∨ buf + i.toNat + n ≤ a → m1.mem a = m.mem a) ∧
      (RxGuarded m.trace → RxGuarded m1.trace) := by
  induction n with
  | zero =>
    intro fuel i m hi hn hsup hf
    obtain ⟨f, rfl⟩ : ∃ f, fuel = f + 1 := ⟨fuel - 1, by omega⟩
    have hlt : ¬ i < N := by omega
    refine ⟨m, ?_, fun _ => rfl, by simp, by simp, ?_, fun _ _ => rfl, id⟩
    · simp [uartReadLoop, hlt]
    · intro j w hj; omega
  | succ n ih =>
    intro fuel i m hi hn hsup hf
    obtain ⟨f, rfl⟩ : ∃ f, fuel = f + 1 := ⟨fuel - 1, by omega⟩
    have hlt : i < N := by omega
    have hne : rxWords m.uart.rx ≠ [] := by
      intro h0; rw [h0] at hsup; simp at hsup
    obtain ⟨k, w, rest, hrx, hw⟩ := rxWords_split m.uart.rx hne
    have hlen : m.uart.rx.length = k + (rest.length + 1) := by rw [hrx]; simp
    have hspin := spinRdFlag_idle k f m w rest hrx (by omega)
    obtain ⟨m1, hrun, -, hwords, hreads, hbuf, hframe, hg⟩ := ih f (i + 1)
      { uart := { m.uart with rx := rest }
        mem := fun a => if a = buf + i.toNat then w % 2 ^ 32 % 256 else m.mem a
        trace := m.trace ++ List.replicate k (Event.rdFlag 0) ++ [Event.rdFlag 1] ++
          [Event.rdData (w % 2 ^ 32)] ++ [Event.store (buf + i.toNat) (w % 2 ^ 32 % 256)] }
      (by omega) (by omega)
      (by rw [hw] at hsup; simp at hsup; simpa using hsup)
      (by simp only; omega)
    have h1 : (i + 1).toNat = i.toNat + 1 := by omega
    refine ⟨m1, ?_, fun h => by omega, ?_, ?_, ?_, ?_, ?_⟩
    · simp only [uartReadLoop]
      rw [if_pos hlt, hspin]
      simpa [Machine.loadData, Uart.readData, Machine.storeByte] using hrun
    · rw [hwords, hw]; simp
    · rw [hreads, hw]
      simp [dataReads_append, dataReads_replicate_rdFlag, dataReads]
    · intro j x hj hx
      rw [hw] at hx
      rcases j with _ | j
      · simp at hx
        subst hx
        rw [hframe _ (Or.inl (by omega))]
        simp [Nat.mod_mod_of_dvd]
        omega
      · simp at hx
        have := hbuf j x (by omega) hx
        rw [h1] at this
        rw [← this]
        congr 1
        omega
    · intro a ha
      rw [hframe a (by omega)]
      have : a ≠ buf + i.toNat := by omega
      simp [this]
    · intro h0
      apply hg
      have e1 := (h0.append_quiet (List.replicate k (Event.rdFlag 0)) (by
        intro e he x
        rw [List.eq_of_mem_replicate he]
        simp)).append_read 1 (w % 2 ^ 32) (by decide)
      have e2 := e1.append_quiet [Event.store (buf + i.toNat) (w % 2 ^ 32 % 256)] (by simp)
      simpa [List.append_assoc] using e2

/-! ## Lemmas on the payload loop of `main` -/

theorem dataReads_payloadEvents (addr : Nat) (ws : List Nat) :
    dataReads (payloadEvents addr ws) = ws.map (fun w => w % 2 ^ 32) := by
  induction ws with
  | nil => rfl
  | cons w ws ih => simp [payloadEvents, dataReads, ih]

theorem storesOf_payloadEvents (addr : Nat) (ws : List Nat) :
    storesOf (payloadEvents addr ws) = ws.map (fun w => (addr, w % 2 ^ 32 % 256)) := by
  induction ws with
  | nil => rfl
  | cons w ws ih => simp [payloadEvents, storesOf, ih]

theorem payloadMem_other (addr : Nat) (ws : List Nat) : ∀ (mem : Nat → Nat) (a : Nat),
    a ≠ addr → payloadMem addr mem ws a = mem a := by
  induction ws with
  | nil => intro mem a _; rfl
  | cons w ws ih =>
    intro mem a ha
    simp only [payloadMem]
    rw [ih _ a ha]
    simp [ha]

/-- The payload loop as written, entered with `num_bytes_read = 0`: with
`num_bytes = nb % 256` and `256 - nb` words waiting it reads exactly those
words, stores each to `INSTR_BASE + tot_bytes` and ends with `num_bytes = 0`. -/
theorem payloadLoop_wrap (tot : Nat) (ws : List Nat) :
    ∀ (fuel nb : Nat) (m : Machine) (rest : List (Option Nat)),
    nb + ws.length = 256 → ws.length ≤ 255 → m.uart.rx = ws.map some ++ rest →
    ws.length + 1 ≤ fuel →
    payloadLoop tot 0 fuel (nb % 256) m = some (0,
      { uart := { m.uart with rx := rest }
        mem := payloadMem (INSTR_BASE + tot) m.mem ws
        trace := m.trace ++ payloadEvents (INSTR_BASE + tot) ws }) := by
  induction ws with
  | nil =>
    intro fuel nb m rest hnb _ hrx hf
    obtain ⟨f, rfl⟩ : ∃ f, fuel = f + 1 := ⟨fuel - 1, by omega⟩
    obtain ⟨⟨rx, junk, tx⟩, mem, t⟩ := m
    simp only [List.map_nil, List.nil_append] at hrx
    subst hrx
    have h0 : nb % 256 = 0 := by simp at hnb; omega
    simp [payloadLoop, h0, payloadMem, payloadEvents]
  | cons w ws ih =>
    intro fuel nb m rest hnb hlen hrx hf
    obtain ⟨f, rfl⟩ : ∃ f, fuel = f + 1 := ⟨fuel - 1, by omega⟩
    obtain ⟨⟨rx, junk, tx⟩, mem, t⟩ := m
    simp only [List.map_cons, List.cons_append] at hrx
    subst hrx
    simp only [List.length_cons] at hnb hlen hf
    have h1 : 0 < nb % 256 := by omega
    have h2 : (nb % 256 + 1) % 256 = (nb + 1) % 256 := by omega
    have hih := ih f (nb + 1)
      { uart := { rx := ws.map some ++ rest, junk := junk, txFull := tx }
        mem := fun a => if a = INSTR_BASE + tot then w % 2 ^ 32 % 256 else mem a
        trace := t ++ [Event.rdData (w % 2 ^ 32)] ++
          [Event.store (INSTR_BASE + tot) (w % 2 ^ 32 % 256)] }
      rest (by omega) (by omega) rfl (by omega)
    simp only [payloadLoop, if_pos h1, h2, Machine.loadData, Uart.readData, Machine.storeByte]
    rw [hih]
    simp [payloadMem, payloadEvents]

/-- The function `main` as written, on a stream whose first word has a non-zero
low byte `n` and is followed by `256 - n` waiting words `ws`: `main` reads the
first word and the words `ws`, stores each of them to `INSTR_BASE` and calls
`prog`. -/
theorem main_nonzero_length (k : Nat) (w : Nat) (ws : List Nat) (rest : List (Option Nat))
    (junk : Nat) (txFull : List Nat) (mem : Nat → Nat) (fuel : Nat)
    (hw : w % 2 ^ 32 % 256 + ws.length = 256) (hlen : ws.length ≤ 255)
    (hf1 : k + 2 ≤ fuel) (hf2 : ws.length + 2 ≤ fuel) :
    main fuel
        { rx := List.replicate k none ++ some w :: (ws.map some ++ rest)
          junk := junk, txFull := txFull } mem
      = some
        { uart := { rx := rest, junk := junk, txFull := txFull }
          mem := payloadMem INSTR_BASE mem ws
          trace := List.replicate k (Event.rdFlag 0) ++
            [Event.rdFlag 1, Event.rdData (w % 2 ^ 32)] ++
            payloadEvents INSTR_BASE ws ++ [Event.jump prog] } := by
  obtain ⟨f, rfl⟩ : ∃ f, fuel = f + 1 := ⟨fuel - 1, by omega⟩
  have hspin := spinRdFlag_idle k f
    { uart := { rx := List.replicate k none ++ some w :: (ws.map some ++ rest)
                junk := junk, txFull := txFull }
      mem := mem, trace := [] } w (ws.map some ++ rest) rfl (by omega)
  have hmod : w % 2 ^ 32 % 256 = (w % 2 ^ 32 % 256) % 256 := by omega
  have hpay := payloadLoop_wrap 0 ws f (w % 2 ^ 32 % 256)
    { uart := { rx := ws.map some ++ rest, junk := junk, txFull := txFull }
      mem := mem
      trace := List.replicate k (Event.rdFlag 0) ++ [Event.rdFlag 1] ++
        [Event.rdData (w % 2 ^ 32)] }
    rest hw hlen rfl (by omega)
  rw [← hmod] at hpay
  simp only [main, chunkLoop, hspin, Machine.loadData, Uart.readData, List.nil_append]
  simp only [Nat.add_zero] at hpay
  rw [hpay]
  simp [Machine.emit]

/-! ## The run of `main` on an arbitrary stream -/

theorem rawReads_length (junk : Nat) (c : Nat) : ∀ rx : List (Option Nat),
    (rawReads junk c rx).length = c := by
  induction c with
  | zero => intro rx; rfl
  | succ c ih =>
    intro rx
    rcases rx with _ | ⟨_ | w, r⟩ <;> simp [rawReads, ih]

/-- The payload loop as written, entered with `num_bytes_read = 0` and
`num_bytes = nb % 256` where `nb + c = 256`, on any state of the UART: it makes
exactly `c` iterations, each reading the read-data register once (without
polling) and storing the low byte to `INSTR_BASE + tot_bytes`, and ends with
`num_bytes = 0`. -/
theorem payloadLoop_run (tot : Nat) (c : Nat) :
    ∀ (fuel nb : Nat) (m : Machine), nb + c = 256 → c ≤ 255 → c + 1 ≤ fuel →
    payloadLoop tot 0 fuel (nb % 256) m = some (0,
      { uart := { m.uart with rx := m.uart.rx.drop c }
        mem := payloadMem (INSTR_BASE + tot) m.mem (rawReads m.uart.junk c m.uart.rx)
        trace := m.trace ++
          payloadEvents (INSTR_BASE + tot) (rawReads m.uart.junk c m.uart.rx) }) := by
  induction c with
  | zero =>
    intro fuel nb m hnb _ hf
    obtain ⟨f, rfl⟩ : ∃ f, fuel = f + 1 := ⟨fuel - 1, by omega⟩
    have h0 : nb % 256 = 0 := by omega
    simp [payloadLoop, h0, payloadMem, payloadEvents, rawReads]
  | succ c ih =>
    intro fuel nb m hnb hlen hf
    obtain ⟨f, rfl⟩ : ∃ f, fuel = f + 1 := ⟨fuel - 1, by omega⟩
    have h1 : 0 < nb % 256 := by omega
    have h2 : (nb % 256 + 1) % 256 = (nb + 1) % 256 := by omega
    obtain ⟨⟨rx, junk, tx⟩, mem, t⟩ := m
    simp only [payloadLoop, if_pos h1, h2]
    rcases rx with _ | ⟨_ | w, r⟩
    · rw [show (Machine.loadData ⟨⟨[], junk, tx⟩, mem, t⟩) =
        (junk % 2 ^ 32, ⟨⟨[], junk, tx⟩, mem, t ++ [Event.rdData (junk % 2 ^ 32)]⟩) from rfl]
      simp only [Machine.storeByte]
      rw [ih f (nb + 1) _ (by omega) (by omega) (by omega)]
      simp [payloadMem, payloadEvents, rawReads]
    · rw [show (Machine.loadData ⟨⟨none :: r, junk, tx⟩, mem, t⟩) =
        (junk % 2 ^ 32, ⟨⟨r, junk, tx⟩, mem, t ++ [Event.rdData (junk % 2 ^ 32)]⟩) from rfl]
      simp only [Machine.storeByte]
      rw [ih f (nb + 1) _ (by omega) (by omega) (by omega)]
      simp [payloadMem, payloadEvents, rawReads]
    · rw [show (Machine.loadData ⟨⟨some w :: r, junk, tx⟩, mem, t⟩) =
        (w % 2 ^ 32, ⟨⟨r, junk, tx⟩, mem, t ++ [Event.rdData (w % 2 ^ 32)]⟩) from rfl]
      simp only [Machine.storeByte]
      rw [ih f (nb + 1) _ (by omega) (by omega) (by omega)]
      simp [payloadMem, payloadEvents, rawReads]

theorem wrapCount_le (n : Nat) : wrapCount n ≤ 255 := by
  unfold wrapCount; omega

/-- The function `main` as written, on any stream on which a first word `w`
arrives (after `k` idle moments): `main` polls until the word is there, reads
it, makes `wrapCount w` unpolled reads of the read-data register, stores the
low byte of each to `INSTR_BASE`, and calls `prog`. -/
theorem main_run (k : Nat) (w : Nat) (rest : List (Option Nat))
    (junk : Nat) (txFull : List Nat) (mem : Nat → Nat) (fuel : Nat)
    (hf1 : k + 2 ≤ fuel) (hf2 : wrapCount w + 2 ≤ fuel) :
    main fuel
        { rx := List.replicate k none ++ some w :: rest, junk := junk, txFull := txFull } mem
      = some
        { uart := { rx := rest.drop (wrapCount w), junk := junk, txFull := txFull }
          mem := payloadMem INSTR_BASE mem (rawReads junk (wrapCount w) rest)
          trace := List.replicate k (Event.rdFlag 0) ++
            [Event.rdFlag 1, Event.rdData (w % 2 ^ 32)] ++
            payloadEvents INSTR_BASE (rawReads junk (wrapCount w) rest) ++
            [Event.jump prog] } := by
  obtain ⟨f, rfl⟩ : ∃ f, fuel = f + 1 := ⟨fuel - 1, by omega⟩
  have hspin := spinRdFlag_idle k f
    { uart := { rx := List.replicate k none ++ some w :: rest, junk := junk, txFull := txFull }
      mem := mem, trace := [] } w rest rfl (by omega)
  have hc := wrapCount_le w
  have hnb : (256 - wrapCount w) % 256 = w % 2 ^ 32 % 256 := by
    unfold wrapCount; omega
  have hpay := payloadLoop_run 0 (wrapCount w) f (256 - wrapCount w)
    { uart := { rx := rest, junk := junk, txFull := txFull }
      mem := mem
      trace := List.replicate k (Event.rdFlag 0) ++ [Event.rdFlag 1] ++
        [Event.rdData (w % 2 ^ 32)] }
    (by omega) hc (by omega)
  rw [hnb] at hpay
  simp only [main, chunkLoop, hspin, Machine.loadData, Uart.readData, List.nil_append]
  simp only [Nat.add_zero] at hpay
  rw [hpay]
  simp [Machine.emit]

theorem storesOf_append (a b : List Event) :
    storesOf (a ++ b) = storesOf a ++ storesOf b := by
  induction a with
  | nil => rfl
  | cons e a ih => cases e <;> simp [storesOf, ih]

theorem storesOf_replicate_rdFlag (k v : Nat) :
    storesOf (List.replicate k (Event.rdFlag v)) = [] := by
  induction k with
  | zero => rfl
  | succ k ih => simpa [List.replicate_succ, storesOf] using ih

/-- After the stores of a non-empty run of the payload loop the target address
holds the low byte of the last word read. -/
theorem payloadMem_self (addr : Nat) (ws : List Nat) : ∀ (mem : Nat → Nat) (v : Nat),
    ws.getLast? = some v → payloadMem addr mem ws addr = v % 2 ^ 32 % 256 := by
  induction ws with
  | nil => intro mem v h; simp at h
  | cons w ws ih =>
    intro mem v h
    rcases ws with _ | ⟨w1, ws1⟩
    · simp at h
      subst h
      simp [payloadMem]
    · simp only [payloadMem]
      rw [List.getLast?_cons_cons] at h
      have := ih (fun a => if a = addr then w % 2 ^ 32 % 256 else mem a) v h
      simpa [payloadMem] using this

theorem payloadMem_congr (addr : Nat) (ws : List Nat) : ∀ (mem1 mem2 : Nat → Nat) (a : Nat),
    mem1 a = mem2 a → payloadMem addr mem1 ws a = payloadMem addr mem2 ws a := by
  induction ws with
  | nil => intro mem1 mem2 a h; exact h
  | cons w ws ih =>
    intro mem1 mem2 a h
    simp only [payloadMem]
    apply ih
    simp [h]

theorem payloadMem_stored (addr : Nat) (ws : List Nat) (hne : ws ≠ []) (mem1 mem2 : Nat → Nat) :
    payloadMem addr mem1 ws addr = payloadMem addr mem2 ws addr := by
  obtain ⟨v, hv⟩ : ∃ v, ws.getLast? = some v := by
    cases h : ws.getLast? with
    | none => exact absurd (List.getLast?_eq_none_iff.mp h) hne
    | some v => exact ⟨v, rfl⟩
  rw [payloadMem_self addr ws mem1 v hv, payloadMem_self addr ws mem2 v hv]

theorem dataReads_main_trace (k w : Nat) (ws : List Nat) :
    dataReads (List.replicate k (Event.rdFlag 0) ++ [Event.rdFlag 1, Event.rdData (w % 2 ^ 32)] ++
      payloadEvents INSTR_BASE ws ++ [Event.jump prog])
      = (w % 2 ^ 32) :: ws.map (fun v => v % 2 ^ 32) := by
  simp [dataReads_append, dataReads_replicate_rdFlag, dataReads_payloadEvents, dataReads]

theorem storesOf_main_trace (k w : Nat) (ws : List Nat) :
    storesOf (List.replicate k (Event.rdFlag 0) ++ [Event.rdFlag 1, Event.rdData (w % 2 ^ 32)] ++
      payloadEvents INSTR_BASE ws ++ [Event.jump prog])
      = ws.map (fun v => (INSTR_BASE, v % 2 ^ 32 % 256)) := by
  simp [storesOf_append, storesOf_replicate_rdFlag, storesOf_payloadEvents, storesOf]

theorem wrapCount_eq_zero (w : Nat) : wrapCount w = 0 ↔ w % 256 = 0 := by
  unfold wrapCount; omega

theorem wrapCount_lowByte (w : Nat) : wrapCount (w % 256) = wrapCount w := by
  unfold wrapCount; omega

theorem rawReads_lowBytes (junk : Nat) (c : Nat) : ∀ rx : List (Option Nat),
    rawReads (junk % 256) c (rx.map (Option.map (fun w => w % 256)))
      = (rawReads junk c rx).map (fun w => w % 256) := by
  induction c with
  | zero => intro rx; rfl
  | succ c ih =>
    intro rx
    rcases rx with _ | ⟨_ | w, r⟩
    · simpa [rawReads] using ih []
    · simpa [rawReads] using ih r
    · simpa [rawReads] using ih r

theorem payloadMem_lowBytes (addr : Nat) (ws : List Nat) : ∀ mem : Nat → Nat,
    payloadMem addr mem (ws.map (fun w => w % 256)) = payloadMem addr mem ws := by
  induction ws with
  | nil => intro mem; rfl
  | cons w ws ih =>
    intro mem
    have h : w % 256 % 2 ^ 32 % 256 = w % 2 ^ 32 % 256 := by omega
    simp only [List.map_cons, payloadMem, h]
    exact ih _

theorem payloadEvents_lowBytes (addr : Nat) (ws : List Nat) :
    payloadEvents addr (ws.map (fun w => w % 256)) = (payloadEvents addr ws).map Event.lowByte := by
  induction ws with
  | nil => rfl
  | cons w ws ih =>
    have h2 : w % 256 % 2 ^ 32 = w % 2 ^ 32 % 256 := by omega
    simp only [List.map_cons, payloadEvents, Event.lowByte, h2, ih, Nat.mod_mod]

/-! ## Theorems on `main` -/

/-- C6: on every byte stream whose first byte is 0x00 (after any number of
moments in which nothing has arrived yet), `main` returns from its loops,
takes exactly that one word from the UART, reads no payload byte, makes no
store (memory is left as it was) and then calls `prog`. -/
theorem main_zero_length_chunk (k extra : Nat) (rest : List (Option Nat))
    (junk : Nat) (txFull : List Nat) (mem : Nat → Nat) :
    main (k + 2 + extra)
        { rx := List.replicate k none ++ some 0 :: rest, junk := junk, txFull := txFull } mem
      = some
        { uart := { rx := rest, junk := junk, txFull := txFull }
          mem := mem
          trace := List.replicate k (Event.rdFlag 0) ++
            [Event.rdFlag 1, Event.rdData 0, Event.jump prog] } := by
  have hspin := spinRdFlag_idle k (k + 1 + extra)
    { uart := { rx := List.replicate k none ++ some 0 :: rest, junk := junk, txFull := txFull }
      mem := mem, trace := [] } 0 rest rfl (by omega)
  have hfuel : k + 2 + extra = (k + 1 + extra) + 1 := by omega
  rw [hfuel]
  simp only [main, chunkLoop, hspin]
  have hp : k + 1 + extra = (k + extra) + 1 := by omega
  rw [hp]
  simp [payloadLoop, Machine.loadData, Uart.readData, Machine.emit]

set_option maxRecDepth 1000000 in
/-- C1 (code evaluated at a failing input): on the chunk sequence
`[0xFF, <255 bytes 0xAA>, 0x02, 0xDD, 0xEE]` and a zeroed memory, `main` ends
with byte 0xAA at image offset 0, leaves offsets 1, 254, 255 and 256 at 0 and
leaves 257 words of the stream unread; the image is not the 257 payload bytes. -/
theorem main_image_on_two_chunks :
    (main 3 { rx := twoChunkStream, junk := 0, txFull := [] } zeroMem).map
        (fun m => (m.mem INSTR_BASE, m.mem (INSTR_BASE + 1), m.mem (INSTR_BASE + 254),
          m.mem (INSTR_BASE + 255), m.mem (INSTR_BASE + 256), m.uart.rx.length))
      = some (0xAA, 0, 0, 0, 0, 257) := by
  decide

set_option maxRecDepth 1000000 in
/-- C2 (code evaluated at a failing input): on the stream that starts with
`[0x03, 0xAA, 0xBB, 0xCC]`, `main` reads 254 words from the read-data register
(the length byte and 253 more), so it reads far beyond the chunk; it ends with
byte 0x11 at image offset 0 and leaves offsets 1 and 2 untouched. -/
theorem main_on_three_byte_chunk :
    (main 300 { rx := threeByteStream, junk := 0, txFull := [] } zeroMem).map
        (fun m => ((dataReads m.trace).length, m.mem INSTR_BASE, m.mem (INSTR_BASE + 1),
          m.mem (INSTR_BASE + 2), m.uart.rx))
      = some (254, 0x11, 0, 0, [some 0x77]) := by
  have hrx : threeByteStream = List.replicate 0 none ++
      some 0x03 :: (([0xAA, 0xBB, 0xCC] ++ List.replicate 250 0x11).map some ++ [some 0x77]) := by
    decide
  rw [hrx, main_nonzero_length 0 0x03 ([0xAA, 0xBB, 0xCC] ++ List.replicate 250 0x11)
    [some 0x77] 0 [] zeroMem 300 (by decide) (by decide) (by decide) (by decide)]
  decide

set_option maxRecDepth 1000000 in
/-- C3 (code evaluated at a failing input): on a stream whose first length
byte is 255, `main` reads one payload word and then calls `prog` at once; it
never goes back to read a second length byte. -/
theorem main_trace_on_full_chunk :
    (main 3 { rx := twoChunkStream, junk := 0, txFull := [] } zeroMem).map (fun m => m.trace)
      = some [Event.rdFlag 1, Event.rdData 255, Event.rdData 0xAA,
          Event.store 0x1000 0xAA, Event.jump 0x1000] := by
  decide

set_option maxRecDepth 1000000 in
/-- C4 (code evaluated at failing inputs): entered with `num_bytes = 255` the
payload loop of `main` reads 1 word, and entered with `num_bytes = 3` it reads
253 words; both times it ends with `num_bytes = 0`. -/
theorem payloadLoop_iterations :
    (payloadLoop 0 0 300 255
        { uart := { rx := List.replicate 300 (some 0xAA), junk := 0, txFull := [] }
          mem := zeroMem, trace := [] }).map
        (fun r => (r.1, (dataReads r.2.trace).length, r.2.uart.rx.length)) = some (0, 1, 299) ∧
    (payloadLoop 0 0 300 3
        { uart := { rx := List.replicate 300 (some 0xAA), junk := 0, txFull := [] }
          mem := zeroMem, trace := [] }).map
        (fun r => (r.1, (dataReads r.2.trace).length, r.2.uart.rx.length)) = some (0, 253, 47) := by
  refine ⟨by decide, ?_⟩
  have h : payloadLoop 0 0 300 3
      { uart := { rx := List.replicate 300 (some 0xAA), junk := 0, txFull := [] }
        mem := zeroMem, trace := [] } = _ :=
    payloadLoop_wrap 0 (List.replicate 253 0xAA) 300 3 _ (List.replicate 47 (some 0xAA))
      (by decide) (by decide) (by decide) (by decide)
  rw [h]
  decide

set_option maxRecDepth 1000000 in
/-- C5 (code evaluated at failing inputs): on `[0xFE, 0xAA, 0xBB]` both payload
bytes are stored to image offset 0, and on
`[0xFF, <255 bytes>, 0x02, 0xDD, 0xEE]` one store is made instead of 257. -/
theorem main_stores_at_offset_zero :
    (main 4 { rx := shortStream, junk := 0, txFull := [] } zeroMem).map
        (fun m => storesOf m.trace) = some [(INSTR_BASE + 0, 0xAA), (INSTR_BASE + 0, 0xBB)] ∧
    (main 3 { rx := twoChunkStream, junk := 0, txFull := [] } zeroMem).map
        (fun m => storesOf m.trace) = some [(INSTR_BASE + 0, 0xAA)] := by
  decide

/-- C7 (code evaluated at a failing input): when the payload byte arrives one
moment after the length byte 255 has been taken, `main` reads the read-data
register without polling the flag again, gets the unspecified word (here 0x55)
and stores it; the trace does not satisfy `RxPolled`. -/
theorem main_reads_payload_unpolled :
    ∃ m, main 3 { rx := lateStream, junk := 0x55, txFull := [] } zeroMem = some m ∧
      m.trace = [Event.rdFlag 1, Event.rdData 255, Event.rdData 0x55,
        Event.store 0x1000 0x55, Event.jump 0x1000] ∧
      m.uart.rx = [some 0xAA] ∧
      ¬ RxPolled m.trace := by
  refine ⟨_, rfl, ?_⟩
  have ht : ∀ t : List Event, t = [Event.rdFlag 1, Event.rdData 255, Event.rdData 0x55,
      Event.store 0x1000 0x55, Event.jump 0x1000] → ¬ RxPolled t := by
    intro t ht h
    subst ht
    obtain ⟨j, v, hj, hflag, -, hbetween⟩ := h 2 0x55 (by decide)
    have hj0 : j = 0 := by
      rcases j with _ | _ | j
      · rfl
      · simp at hflag
      · omega
    subst hj0
    exact hbetween 1 255 (by omega) (by omega) (by decide)
  exact ⟨by decide, by decide, ht _ (by decide)⟩

/-! ## Theorems on `uart_write` and `uart_read` -/

/-- C8: for every buffer, every `len` and either signedness of `char`,
`uart_write(data, len)` returns and the bytes it writes to the transmit-data
register are exactly the longest prefix of `data[0..len)` without a null byte,
in order (each written as the `uint32_t` conversion of the `char`, whose low
byte is the byte itself); it therefore stops before the first null byte, sends
at most `len` bytes, touches nothing at all when `len <= 0`, and leaves memory
unchanged. -/
theorem uart_write_sends_until_null (signedChar : Bool) (uart : Uart)
    (mem : Nat → Nat) (data : Nat) (len : Int) (extra : Nat) :
    ∃ m, uart_write (len.toNat + uart.txFull.length + 1 + extra) signedChar uart mem data len
        = some m ∧
      dataWrites m.trace =
        (((List.range len.toNat).map (fun i => mem (data + i) % 256)).takeWhile
          (fun b => b ≠ 0)).map (charToWord signedChar) ∧
      (dataWrites m.trace).map (fun w => w % 256) =
        ((List.range len.toNat).map (fun i => mem (data + i) % 256)).takeWhile
          (fun b => b ≠ 0) ∧
      (dataWrites m.trace).length ≤ len.toNat ∧
      (len ≤ 0 → m.trace = []) ∧
      m.mem = mem := by
  obtain ⟨m, hrun, hmem, -, hzero, hwr, -⟩ :=
    uartWriteLoop_result signedChar data len len.toNat
      (len.toNat + uart.txFull.length + 1 + extra) 0
      { uart := uart, mem := mem, trace := [] } (le_refl 0) (by simp) (by simp only; omega)
  have hwr1 : dataWrites m.trace =
      (((List.range len.toNat).map (fun i => mem (data + i) % 256)).takeWhile
        (fun b => b ≠ 0)).map (charToWord signedChar) := by
    simpa [dataWrites] using hwr
  refine ⟨m, hrun, hwr1, ?_, ?_, ?_, hmem⟩
  · rw [hwr1, List.map_map]
    have hid : ((fun w => w % 256) ∘ charToWord signedChar) = fun b => b % 256 := by
      funext b
      exact charToWord_mod signedChar b
    rw [hid]
    refine (List.map_congr_left ?_).trans (List.map_id _)
    intro b hb
    have hb1 := (List.takeWhile_sublist _).subset hb
    obtain ⟨i, -, rfl⟩ := List.mem_map.mp hb1
    simp
  · rw [hwr1, List.length_map]
    exact (List.takeWhile_sublist _).length_le.trans (by simp)
  · intro hlen
    rw [hzero (by omega)]

/-- C10: for every buffer, every `len` and every behaviour of the
write-buffer-full flag, `uart_write` returns and in its trace every write to
the transmit-data register directly follows a read of the write-buffer-full
flag that returned 0. -/
theorem uart_write_polls_before_each_write (signedChar : Bool) (uart : Uart)
    (mem : Nat → Nat) (data : Nat) (len : Int) (extra : Nat) :
    ∃ m, uart_write (len.toNat + uart.txFull.length + 1 + extra) signedChar uart mem data len
        = some m ∧
      TxGuarded m.trace := by
  obtain ⟨m, hrun, -, -, -, -, hg⟩ :=
    uartWriteLoop_result signedChar data len len.toNat
      (len.toNat + uart.txFull.length + 1 + extra) 0
      { uart := uart, mem := mem, trace := [] } (le_refl 0) (by simp) (by simp only; omega)
  refine ⟨m, hrun, hg ?_⟩
  intro i w hi
  simp at hi

/-- C9: on every UART input stream that supplies at least `N` words,
`uart_read(buf, N)` returns having read exactly the first `N` words from the
receive-data register (for `N <= 0`: none, with nothing touched), each directly
after a read of the receive-available flag that returned non-zero; `buf[i]`
holds the low 8 bits of the `i`-th word for every `i < N`, and every memory
byte outside `buf[0..N)` is unchanged. -/
theorem uart_read_fills_buffer (uart : Uart) (mem : Nat → Nat) (buf : Nat) (N : Int)
    (extra : Nat) (hsup : N ≤ ((rxWords uart.rx).length : Int)) :
    ∃ m, uart_read (N.toNat + uart.rx.length + 1 + extra) uart mem buf N = some m ∧
      dataReads m.trace = ((rxWords uart.rx).take N.toNat).map (fun w => w % 2 ^ 32) ∧
      (dataReads m.trace).length = N.toNat ∧
      rxWords m.uart.rx = (rxWords uart.rx).drop N.toNat ∧
      RxGuarded m.trace ∧
      (∀ (i w : Nat), i < N.toNat → (rxWords uart.rx)[i]? = some w →
        m.mem (buf + i) = w % 256) ∧
      (∀ a, a < buf ∨ buf + N.toNat ≤ a → m.mem a = mem a) ∧
      (N ≤ 0 → m.trace = [] ∧ m.uart.rx = uart.rx) := by
  have hsup1 : N.toNat ≤ (rxWords uart.rx).length := by omega
  obtain ⟨m, hrun, hzero, hwords, hreads, hbuf, hframe, hg⟩ :=
    uartReadLoop_result buf N N.toNat (N.toNat + uart.rx.length + 1 + extra) 0
      { uart := uart, mem := mem, trace := [] } (le_refl 0) (by simp) hsup1
      (by simp only; omega)
  have hreads1 : dataReads m.trace =
      ((rxWords uart.rx).take N.toNat).map (fun w => w % 2 ^ 32) := by
    simpa [dataReads] using hreads
  refine ⟨m, hrun, hreads1, ?_, hwords, hg ?_, ?_, ?_, ?_⟩
  · rw [hreads1]
    simpa using hsup
  · intro i w hi
    simp at hi
  · intro i w hi hw
    simpa using hbuf i w hi hw
  · intro a ha
    exact hframe a (by simpa using ha)
  · intro hN
    rw [hzero (by omega)]
    exact ⟨rfl, rfl⟩

/-- Witness for C9: two words are read from a stream of three words with idle
moments in between. -/
theorem uart_read_fills_buffer_witness :
    ((2 : Int) ≤ ((rxWords [none, some 0x141, some 0x42, none, some 7]).length : Int)) ∧
    ∃ m, uart_read (Int.toNat 2 + 5 + 1 + 0)
        { rx := [none, some 0x141, some 0x42, none, some 7], junk := 0, txFull := [] }
        zeroMem 100 2 = some m ∧
      dataReads m.trace =
        ((rxWords [none, some 0x141, some 0x42, none, some 7]).take (Int.toNat 2)).map
          (fun w => w % 2 ^ 32) ∧
      (dataReads m.trace).length = Int.toNat 2 ∧
      rxWords m.uart.rx = (rxWords [none, some 0x141, some 0x42, none, some 7]).drop (Int.toNat 2) ∧
      RxGuarded m.trace ∧
      (∀ (i w : Nat), i < Int.toNat 2 →
        (rxWords [none, some 0x141, some 0x42, none, some 7])[i]? = some w →
        m.mem (100 + i) = w % 256) ∧
      (∀ a, a < 100 ∨ 100 + Int.toNat 2 ≤ a → m.mem a = zeroMem a) ∧
      ((2 : Int) ≤ 0 → m.trace = [] ∧
        m.uart.rx = [none, some 0x141, some 0x42, none, some 7]) :=
  ⟨by decide,
   uart_read_fills_buffer
     { rx := [none, some 0x141, some 0x42, none, some 7], junk := 0, txFull := [] }
     zeroMem 100 2 0 (by decide)⟩

/-! ## Theorems on the behaviour of `main` as written -/

/-- C11 (counterexample): two runs of `main` on the same stream `[0x00]`, one
started on a memory of zeros and one on a memory of ones, end with different
contents at the image base: the image after a run is not fixed by the stream
alone. -/
theorem main_image_depends_on_initial_memory :
    ∃ m1 m2, main 2 { rx := [some 0x00], junk := 0, txFull := [] } zeroMem = some m1 ∧
      main 2 { rx := [some 0x00], junk := 0, txFull := [] } oneMem = some m2 ∧
      m1.mem INSTR_BASE ≠ m2.mem INSTR_BASE :=
  ⟨_, _, rfl, rfl, by decide⟩

/-- C11 (amended): two runs of `main` fed the same UART byte stream on which a
first byte arrives, whatever memory held before each run, both return and end
with the call of `prog`; they read the same length byte, make the same number
of reads of the read-data register and store to the same addresses; and every
byte of memory `main` does not store to keeps the value it held before that
run, so the two memories afterwards are equal at every such byte at which they
were equal before. -/
theorem main_repeatable (u1 u2 : Uart) (mem1 mem2 : Nat → Nat) (extra : Nat)
    (hsame : rxWords u1.rx = rxWords u2.rx) (hne : rxWords u1.rx ≠ []) :
    ∃ m1 m2,
      main (u1.rx.length + u2.rx.length + 257 + extra) u1 mem1 = some m1 ∧
      main (u1.rx.length + u2.rx.length + 257 + extra) u2 mem2 = some m2 ∧
      m1.trace.getLast? = some (Event.jump prog) ∧
      m2.trace.getLast? = some (Event.jump prog) ∧
      (dataReads m1.trace).head? = (dataReads m2.trace).head? ∧
      (dataReads m1.trace).length = (dataReads m2.trace).length ∧
      (storesOf m1.trace).map Prod.fst = (storesOf m2.trace).map Prod.fst ∧
      (∀ a, a ∉ (storesOf m1.trace).map Prod.fst → m1.mem a = mem1 a ∧ m2.mem a = mem2 a) ∧
      (∀ a, a ∉ (storesOf m1.trace).map Prod.fst → mem1 a = mem2 a → m1.mem a = m2.mem a) := by
  obtain ⟨k1, w, rest1, hrx1, hw1⟩ := rxWords_split u1.rx hne
  obtain ⟨k2, w2, rest2, hrx2, hw2⟩ := rxWords_split u2.rx (hsame ▸ hne)
  have hww : w2 = w := by
    rw [hw1, hw2] at hsame
    exact (List.cons.inj hsame).1.symm
  subst hww
  have hl1 : u1.rx.length = k1 + (rest1.length + 1) := by rw [hrx1]; simp
  have hl2 : u2.rx.length = k2 + (rest2.length + 1) := by rw [hrx2]; simp
  have hc := wrapCount_le w2
  obtain ⟨rx1, junk1, tx1⟩ := u1
  obtain ⟨rx2, junk2, tx2⟩ := u2
  simp only at hrx1 hrx2 hl1 hl2
  subst hrx1
  subst hrx2
  have hfst : ∀ l : List Nat,
      (l.map (fun v => (INSTR_BASE, v % 2 ^ 32 % 256))).map Prod.fst
        = List.replicate l.length INSTR_BASE := by
    intro l
    induction l with
    | nil => rfl
    | cons v l ih =>
      simp only [List.map_cons, List.length_cons, List.replicate_succ, ih]
  have hmem : ∀ (junk : Nat) (rest : List (Option Nat)) (mem : Nat → Nat) (a : Nat),
      a ∉ List.replicate (wrapCount w2) INSTR_BASE →
      payloadMem INSTR_BASE mem (rawReads junk (wrapCount w2) rest) a = mem a := by
    intro junk rest mem a ha
    by_cases h : a = INSTR_BASE
    · subst h
      have hz : wrapCount w2 = 0 := by
        by_contra hz
        exact ha (List.mem_replicate.mpr ⟨hz, rfl⟩)
      rw [hz]
      rfl
    · exact payloadMem_other _ _ mem a h
  have hf1 : k1 + 2 ≤ (List.replicate k1 none ++ some w2 :: rest1).length +
      (List.replicate k2 none ++ some w2 :: rest2).length + 257 + extra := by omega
  have hf2 : k2 + 2 ≤ (List.replicate k1 none ++ some w2 :: rest1).length +
      (List.replicate k2 none ++ some w2 :: rest2).length + 257 + extra := by omega
  have hf3 : wrapCount w2 + 2 ≤ (List.replicate k1 none ++ some w2 :: rest1).length +
      (List.replicate k2 none ++ some w2 :: rest2).length + 257 + extra := by omega
  refine ⟨_, _, main_run k1 w2 rest1 junk1 tx1 mem1 _ hf1 hf3,
    main_run k2 w2 rest2 junk2 tx2 mem2 _ hf2 hf3, ?_, ?_, ?_, ?_, ?_, ?_, ?_⟩
  · exact List.getLast?_concat _
  · exact List.getLast?_concat _
  · simp only [dataReads_main_trace, List.head?_cons]
  · simp only [dataReads_main_trace, List.length_cons, List.length_map, rawReads_length]
  · simp only [storesOf_main_trace, hfst, rawReads_length]
  · intro a ha
    simp only [storesOf_main_trace, hfst, rawReads_length] at ha
    exact ⟨hmem junk1 rest1 mem1 a ha, hmem junk2 rest2 mem2 a ha⟩
  · intro a ha heq
    simp only [storesOf_main_trace, hfst, rawReads_length] at ha
    show payloadMem INSTR_BASE mem1 _ a = payloadMem INSTR_BASE mem2 _ a
    rw [hmem junk1 rest1 mem1 a ha, hmem junk2 rest2 mem2 a ha, heq]

/-- Witness for C11: the bytes `[0xFF, 0xAA]`, once both waiting and once with
the second byte arriving late, on a memory of zeros and a memory of ones. -/
theorem main_repeatable_witness :
    (rxWords promptStream = rxWords lateStream ∧ rxWords promptStream ≠ []) ∧
    ∃ m1 m2,
      main (promptStream.length + lateStream.length + 257 + 0)
        { rx := promptStream, junk := 0x55, txFull := [] } zeroMem = some m1 ∧
      main (promptStream.length + lateStream.length + 257 + 0)
        { rx := lateStream, junk := 0x55, txFull := [] } oneMem = some m2 ∧
      m1.trace.getLast? = some (Event.jump prog) ∧
      m2.trace.getLast? = some (Event.jump prog) ∧
      (dataReads m1.trace).head? = (dataReads m2.trace).head? ∧
      (dataReads m1.trace).length = (dataReads m2.trace).length ∧
      (storesOf m1.trace).map Prod.fst = (storesOf m2.trace).map Prod.fst ∧
      (∀ a, a ∉ (storesOf m1.trace).map Prod.fst → m1.mem a = zeroMem a ∧ m2.mem a = oneMem a) ∧
      (∀ a, a ∉ (storesOf m1.trace).map Prod.fst → zeroMem a = oneMem a → m1.mem a = m2.mem a) :=
  ⟨⟨by decide, by decide⟩,
   main_repeatable { rx := promptStream, junk := 0x55, txFull := [] }
     { rx := lateStream, junk := 0x55, txFull := [] } zeroMem oneMem 0 (by decide) (by decide)⟩

/-- C12 (code evaluated): in `bootloader.c` the read-available flag is the
field at byte offset 4 and offset 12 is unused; in `io.h` the read-available
flag is the field at byte offset 12 and offset 4 holds a read-buffer-full flag.
The flag `main` polls is at offset 4, the flag `uart_read` polls is at offset
12.  The other five roles are at the same offsets 0, 8, 16, 20, 24. -/
theorem uart_layouts_compared :
    roleOffset bootloaderUart Role.readAvail = some 4 ∧
    roleOffset ioUart Role.readAvail = some 12 ∧
    roleOffset bootloaderUart Role.unused = some 12 ∧
    roleOffset ioUart Role.readFull = some 4 ∧
    fieldOffset bootloaderUart mainPolledField = some 4 ∧
    fieldOffset ioUart uartReadPolledField = some 12 ∧
    (∀ r, r ∈ [Role.readData, Role.readCount, Role.writeData, Role.writeFull, Role.writeCount] →
      roleOffset bootloaderUart r = roleOffset ioUart r) ∧
    [Role.readData, Role.readCount, Role.writeData, Role.writeFull, Role.writeCount].map
      (roleOffset ioUart) = [some 0, some 8, some 16, some 20, some 24] := by
  decide

/-- C13 (counterexample): entered with `num_bytes = 255` while three words are
waiting in the read buffer, the payload loop returns after one iteration, with
`num_bytes = 0`, one word read and two words still waiting. -/
theorem payloadLoop_255_stops :
    (payloadLoop 0 0 2 255
        { uart := { rx := [some 0xAA, some 0xBB, some 0xCC], junk := 0, txFull := [] }
          mem := zeroMem, trace := [] }).map
        (fun r => (r.1, r.2.trace, r.2.uart.rx))
      = some (0, [Event.rdData 0xAA, Event.store 0x1000 0xAA], [some 0xBB, some 0xCC]) := by
  decide

/-- C13 (amended): entered with `num_bytes = 255` the payload loop as written
makes exactly one iteration on every state of the machine: it reads the
read-data register once, stores the low byte to `INSTR_BASE + tot_bytes`, the
8-bit increment takes `num_bytes` from 255 to 0 and the loop is left, whatever
the transport still supplies. -/
theorem payloadLoop_255_one_iteration (tot extra : Nat) (m : Machine) :
    payloadLoop tot 0 (2 + extra) 255 m
      = some (0, (m.loadData.2).storeByte (INSTR_BASE + tot) m.loadData.1) := by
  have h : 2 + extra = (extra + 1) + 1 := by omega
  rw [h]
  simp [payloadLoop]

/-- C14: for every length byte `n` in 0-255 the payload loop as written,
entered with `num_bytes = n` on any machine, returns with `num_bytes = 0` after
exactly `(256 - n) mod 256` iterations (one read of the read-data register and
one store each); and `main`, on every stream on which a first byte `n` arrives,
polls until it is there, reads that one length byte, makes those
`(256 - n) mod 256` payload reads and stores, and then calls `prog`: the body
of the do-while runs once. -/
theorem payloadLoop_wraps_num_bytes (n : Nat) (hn : n < 256) (tot k extra : Nat)
    (m : Machine) (rest : List (Option Nat)) (junk : Nat) (txFull : List Nat)
    (mem : Nat → Nat) :
    payloadLoop tot 0 ((256 - n) % 256 + 1 + extra) n m = some (0,
      { uart := { m.uart with rx := m.uart.rx.drop ((256 - n) % 256) }
        mem := payloadMem (INSTR_BASE + tot) m.mem
          (rawReads m.uart.junk ((256 - n) % 256) m.uart.rx)
        trace := m.trace ++
          payloadEvents (INSTR_BASE + tot) (rawReads m.uart.junk ((256 - n) % 256) m.uart.rx) }) ∧
    (rawReads m.uart.junk ((256 - n) % 256) m.uart.rx).length = (256 - n) % 256 ∧
    main (k + 257 + extra)
        { rx := List.replicate k none ++ some n :: rest, junk := junk, txFull := txFull } mem
      = some
        { uart := { rx := rest.drop ((256 - n) % 256), junk := junk, txFull := txFull }
          mem := payloadMem INSTR_BASE mem (rawReads junk ((256 - n) % 256) rest)
          trace := List.replicate k (Event.rdFlag 0) ++ [Event.rdFlag 1, Event.rdData n] ++
            payloadEvents INSTR_BASE (rawReads junk ((256 - n) % 256) rest) ++
            [Event.jump prog] } ∧
    (rawReads junk ((256 - n) % 256) rest).length = (256 - n) % 256 := by
  have hc : (256 - n) % 256 ≤ 255 := by omega
  have hw : wrapCount n = (256 - n) % 256 := by unfold wrapCount; omega
  refine ⟨?_, rawReads_length _ _ _, ?_, rawReads_length _ _ _⟩
  · have h := payloadLoop_run tot ((256 - n) % 256) ((256 - n) % 256 + 1 + extra)
      (256 - (256 - n) % 256) m (by omega) hc (by omega)
    have hmod : (256 - (256 - n) % 256) % 256 = n := by omega
    rw [hmod] at h
    exact h
  · have h := main_run k n rest junk txFull mem (k + 257 + extra) (by omega) (by omega)
    have hmod : n % 2 ^ 32 = n := by omega
    rw [hw, hmod] at h
    exact h

/-- Witness for C14: length byte 3 gives 253 iterations, on a stream with one
idle moment before the length byte and a single word after it. -/
theorem payloadLoop_wraps_num_bytes_witness :
    3 < 256 ∧
    (payloadLoop 0 0 ((256 - 3) % 256 + 1 + 0) 3
        { uart := { rx := [some 7], junk := 9, txFull := [] }, mem := zeroMem, trace := [] }
      = some (0,
        { uart := { rx := [some 7].drop ((256 - 3) % 256), junk := 9, txFull := [] }
          mem := payloadMem (INSTR_BASE + 0) zeroMem (rawReads 9 ((256 - 3) % 256) [some 7])
          trace := [] ++
            payloadEvents (INSTR_BASE + 0) (rawReads 9 ((256 - 3) % 256) [some 7]) }) ∧
    (rawReads 9 ((256 - 3) % 256) [some 7]).length = (256 - 3) % 256 ∧
    main (1 + 257 + 0)
        { rx := List.replicate 1 none ++ some 3 :: [some 7], junk := 9, txFull := [] } zeroMem
      = some
        { uart := { rx := [some 7].drop ((256 - 3) % 256), junk := 9, txFull := [] }
          mem := payloadMem INSTR_BASE zeroMem (rawReads 9 ((256 - 3) % 256) [some 7])
          trace := List.replicate 1 (Event.rdFlag 0) ++ [Event.rdFlag 1, Event.rdData 3] ++
            payloadEvents INSTR_BASE (rawReads 9 ((256 - 3) % 256) [some 7]) ++
            [Event.jump prog] } ∧
    (rawReads 9 ((256 - 3) % 256) [some 7]).length = (256 - 3) % 256) :=
  ⟨by decide,
   payloadLoop_wraps_num_bytes 3 (by decide) 0 1 0
     { uart := { rx := [some 7], junk := 9, txFull := [] }, mem := zeroMem, trace := [] }
     [some 7] 9 [] zeroMem⟩

/-- C15: on every stream on which a first word `w` arrives, `main` returns and
every store it made targets `INSTR_BASE + 0`; every byte of memory at another
address holds its initial value; the byte at `INSTR_BASE` holds its initial
value when the length byte `w mod 256` is 0 (no store is made), and the low 8
bits of the last payload word read when the length byte is not 0. -/
theorem main_stores_target_image_base (k w : Nat) (rest : List (Option Nat)) (junk : Nat)
    (txFull : List Nat) (mem : Nat → Nat) (extra : Nat) :
    ∃ m,
      main (k + 257 + extra)
        { rx := List.replicate k none ++ some w :: rest, junk := junk, txFull := txFull } mem
        = some m ∧
      (∀ p ∈ storesOf m.trace, p.1 = INSTR_BASE + 0) ∧
      (∀ a, a ≠ INSTR_BASE → m.mem a = mem a) ∧
      (w % 256 = 0 → storesOf m.trace = [] ∧ m.mem INSTR_BASE = mem INSTR_BASE) ∧
      (w % 256 ≠ 0 → ∃ v, (dataReads m.trace).getLast? = some v ∧
        2 ≤ (dataReads m.trace).length ∧ m.mem INSTR_BASE = v % 256) := by
  have hc := wrapCount_le w
  refine ⟨_, main_run k w rest junk txFull mem _ (by omega) (by omega), ?_, ?_, ?_, ?_⟩
  · intro p hp
    simp only [storesOf_main_trace] at hp
    obtain ⟨v, -, rfl⟩ := List.mem_map.mp hp
    rfl
  · intro a ha
    exact payloadMem_other _ _ mem a ha
  · intro h0
    have hz : wrapCount w = 0 := (wrapCount_eq_zero w).mpr h0
    refine ⟨?_, ?_⟩
    · rw [storesOf_main_trace, hz]
      rfl
    · show payloadMem INSTR_BASE mem (rawReads junk (wrapCount w) rest) INSTR_BASE = _
      rw [hz]
      rfl
  · intro h0
    have hz : wrapCount w ≠ 0 := fun h => h0 ((wrapCount_eq_zero w).mp h)
    have hlen := rawReads_length junk (wrapCount w) rest
    obtain ⟨v, hv⟩ : ∃ v, (rawReads junk (wrapCount w) rest).getLast? = some v := by
      cases h : (rawReads junk (wrapCount w) rest).getLast? with
      | none =>
        rw [List.getLast?_eq_none_iff.mp h] at hlen
        exact absurd hlen.symm hz
      | some v => exact ⟨v, rfl⟩
    refine ⟨v % 2 ^ 32, ?_, ?_, ?_⟩
    · simp only [dataReads_main_trace]
      rw [List.getLast?_cons, List.getLast?_map, hv]
      rfl
    · simp only [dataReads_main_trace, List.length_cons, List.length_map, hlen]
      omega
    · show payloadMem INSTR_BASE mem (rawReads junk (wrapCount w) rest) INSTR_BASE = _
      rw [payloadMem_self _ _ mem v hv]

/-- The run of `main` depends on the low 8 bits of the words only: on every
stream on which a first word arrives, the run of `main` and the run on the same
stream with every word cut down to its low 8 bits both return, with the same
memory, the same stores and traces that differ only in the upper bits of the
words read. -/
theorem main_uses_low_byte (k w : Nat) (rest : List (Option Nat)) (junk : Nat)
    (txFull : List Nat) (mem : Nat → Nat) (extra : Nat) :
    ∃ m m1,
      main (k + 257 + extra)
        { rx := List.replicate k none ++ some w :: rest, junk := junk, txFull := txFull } mem
        = some m ∧
      main (k + 257 + extra)
        (Uart.lowBytes
          { rx := List.replicate k none ++ some w :: rest, junk := junk, txFull := txFull }) mem
        = some m1 ∧
      m1.mem = m.mem ∧ m1.uart = m.uart.lowBytes ∧
      m1.trace = m.trace.map Event.lowByte ∧
      storesOf m1.trace = storesOf m.trace ∧
      (dataReads m.trace).length = 1 + (256 - w % 256) % 256 ∧
      storesOf m.trace = (dataReads m.trace).tail.map (fun v => (INSTR_BASE, v % 256)) := by
  have hc := wrapCount_le w
  have hlow : Uart.lowBytes
      { rx := List.replicate k none ++ some w :: rest, junk := junk, txFull := txFull } =
      { rx := List.replicate k none ++ some (w % 256) ::
          rest.map (Option.map (fun w => w % 256))
        junk := junk % 256, txFull := txFull } := by
    simp [Uart.lowBytes]
  have hrun1 := main_run k (w % 256) (rest.map (Option.map (fun w => w % 256))) (junk % 256)
    txFull mem (k + 257 + extra) (by omega) (by rw [wrapCount_lowByte]; omega)
  rw [wrapCount_lowByte, rawReads_lowBytes, payloadMem_lowBytes, payloadEvents_lowBytes,
    ← hlow] at hrun1
  refine ⟨_, _, main_run k w rest junk txFull mem _ (by omega) (by omega),
    hrun1, rfl, ?_, ?_, ?_, ?_, ?_⟩
  · simp [Uart.lowBytes, List.map_drop]
  · simp [Event.lowByte, prog]
    omega
  · rw [storesOf_main_trace]
    simp only [List.append_assoc]
    simp [storesOf_append, storesOf_replicate_rdFlag, storesOf, ← payloadEvents_lowBytes,
      storesOf_payloadEvents]
    intro a _
    omega
  · simp only [dataReads_main_trace, List.length_cons, List.length_map, rawReads_length]
    unfold wrapCount
    omega
  · simp only [dataReads_main_trace, storesOf_main_trace, List.tail_cons, List.map_map]
    rfl

set_option maxRecDepth 1000000 in
/-- C16 (code evaluated at failing inputs): on the words
`[0x1FF, 0xAA, 0x02, 0xDD, 0xEE]`, whose first word has the low byte 0xFF,
`main` makes one payload read, stores it and calls `prog`, leaving
`[0x02, 0xDD, 0xEE]` unread: the word is not treated as a continuation and 255
is not used as the chunk length.  On a stream that starts with
`[0x103, 0xAA, 0xBB, 0xCC]`, whose first word has the low byte 0x03, `main`
makes 254 reads of the read-data register (253 payload reads instead of 3),
ends with 0x11 at image offset 0 and leaves offsets 1 and 2 untouched. -/
theorem main_on_wide_length_words :
    (main 3 { rx := wideSentinelStream, junk := 0, txFull := [] } zeroMem).map
        (fun m => (m.trace, m.uart.rx))
      = some ([Event.rdFlag 1, Event.rdData 0x1FF, Event.rdData 0xAA,
          Event.store 0x1000 0xAA, Event.jump 0x1000], [some 0x02, some 0xDD, some 0xEE]) ∧
    (main 300 { rx := wideThreeStream, junk := 0, txFull := [] } zeroMem).map
        (fun m => ((dataReads m.trace).length, m.mem INSTR_BASE, m.mem (INSTR_BASE + 1),
          m.mem (INSTR_BASE + 2), m.uart.rx))
      = some (254, 0x11, 0, 0, [some 0x77]) := by
  refine ⟨by decide, ?_⟩
  have hrx : wideThreeStream = List.replicate 0 none ++
      some 0x103 :: (([0xAA, 0xBB, 0xCC] ++ List.replicate 250 0x11).map some ++ [some 0x77]) := by
    decide
  rw [hrx, main_nonzero_length 0 0x103 ([0xAA, 0xBB, 0xCC] ++ List.replicate 250 0x11)
    [some 0x77] 0 [] zeroMem 300 (by decide) (by decide) (by decide) (by decide)]
  decide

end RiscvCore
